import Mathlib

/-!
Verification of the searvey core engine specification.

The repository snapshot available here contains only the project's
documentation, packaging and CI configuration; the Python modules that
implement the engine (station catalog, query planner, fetch executor,
result aggregator, provider adapters) are not part of the snapshot.
All operational definitions below are therefore modelled from the
specification text (spec.md) and the in-repo documentation, and each
such definition says so in its doc comment.
-/

namespace Searvey

/-! ## Query Planner (spec §4.3) -/

/-- Modelled from the spec: the Query Planner's interval splitting,
`plan`'s per-station decomposition of `[qstart, qstop)` into half-open
sub-intervals.  The Python planner code is absent from the snapshot, so
this follows §4.3 verbatim: the first sub-interval begins at `qstart`,
each sub-interval's length is `min maxSpan remaining`, and the final one
ends exactly at `qstop`.  The first argument is recursion fuel; with
`0 < maxSpan` a fuel of `qstop - qstart` is always sufficient because
every emitted sub-interval is non-empty. -/
def splitIntervalAux (maxSpan : Nat) : Nat → Nat → Nat → List (Nat × Nat)
  | 0, _, _ => []
  | fuel + 1, s, qstop =>
    if s < qstop then
      (s, s + min maxSpan (qstop - s)) ::
        splitIntervalAux maxSpan fuel (s + min maxSpan (qstop - s)) qstop
    else []

/-- Modelled from the spec: split `[qstart, qstop)` into the ordered
sequence of provider-legal half-open sub-intervals for a provider whose
maximum query span is `maxSpan`. -/
def splitInterval (maxSpan qstart qstop : Nat) : List (Nat × Nat) :=
  splitIntervalAux maxSpan (qstop - qstart) qstart qstop

/-- `coversFrom qstop s l` holds when the interval list `l` is an ordered,
non-overlapping, gap-free sequence of non-empty half-open intervals whose
first member begins at `s`, each member begins where the previous one
ended, and the last member ends exactly at `qstop`. -/
def coversFrom (qstop : Nat) : Nat → List (Nat × Nat) → Bool
  | s, [] => s == qstop
  | s, (a, b) :: rest => a == s && decide (s < b) && coversFrom qstop b rest

theorem coversFrom_splitIntervalAux (maxSpan : Nat) (hm : 0 < maxSpan) :
    ∀ fuel s qstop, s ≤ qstop → qstop - s ≤ fuel →
      coversFrom qstop s (splitIntervalAux maxSpan fuel s qstop) = true := by
  intro fuel
  induction fuel with
  | zero =>
    intro s qstop hle hf
    have : s = qstop := by omega
    subst this
    simp [splitIntervalAux, coversFrom]
  | succ n ih =>
    intro s qstop hle hf
    by_cases h : s < qstop
    · have hmin : 0 < min maxSpan (qstop - s) := by
        simp only [Nat.lt_min]
        omega
      have hle' : s + min maxSpan (qstop - s) ≤ qstop := by
        have := Nat.min_le_right maxSpan (qstop - s)
        omega
      have hf' : qstop - (s + min maxSpan (qstop - s)) ≤ n := by omega
      simp only [splitIntervalAux, if_pos h, coversFrom, Bool.and_eq_true, beq_self_eq_true,
        true_and, decide_eq_true_eq]
      exact ⟨by omega, ih _ _ hle' hf'⟩
    · have : s = qstop := by omega
      subst this
      simp [splitIntervalAux, coversFrom]

theorem splitIntervalAux_len (maxSpan : Nat) :
    ∀ fuel s qstop p, p ∈ splitIntervalAux maxSpan fuel s qstop →
      p.2 - p.1 = min maxSpan (qstop - p.1) := by
  intro fuel
  induction fuel with
  | zero => intro s qstop p hp; simp [splitIntervalAux] at hp
  | succ n ih =>
    intro s qstop p hp
    by_cases h : s < qstop
    · simp only [splitIntervalAux, if_pos h, List.mem_cons] at hp
      rcases hp with rfl | hp
      · simp
      · exact ih _ _ _ hp
    · simp [splitIntervalAux, if_neg h] at hp

/-- C1: for every query request with `qstart < qstop` and every positive
provider `maxSpan`, the planner splits `[qstart, qstop)` into an ordered,
non-overlapping, gap-free sequence of half-open sub-intervals whose union
is exactly `[qstart, qstop)`: the first begins at `qstart`, each has
length `min maxSpan remaining`, consecutive members meet exactly, and the
last ends at `qstop`; in particular a 30-day span over a 75-day interval
yields exactly the three sub-queries of lengths 30, 30 and 15. -/
theorem planner_split_correct (maxSpan qstart qstop : Nat)
    (hm : 0 < maxSpan) (hs : qstart < qstop) :
    coversFrom qstop qstart (splitInterval maxSpan qstart qstop) = true ∧
    (∀ p ∈ splitInterval maxSpan qstart qstop, p.2 - p.1 = min maxSpan (qstop - p.1)) ∧
    splitInterval 30 0 75 = [(0, 30), (30, 60), (60, 75)] := by
  refine ⟨?_, ?_, by decide⟩
  · exact coversFrom_splitIntervalAux maxSpan hm _ _ _ (Nat.le_of_lt hs) (Nat.le_refl _)
  · intro p hp
    exact splitIntervalAux_len maxSpan _ _ _ _ hp

/-- Witness for C1 at `maxSpan = 30`, interval `[0, 75)`. -/
theorem planner_split_correct_witness :
    0 < 30 ∧ 0 < 75 ∧
      (coversFrom 75 0 (splitInterval 30 0 75) = true ∧
       (∀ p ∈ splitInterval 30 0 75, p.2 - p.1 = min 30 (75 - p.1)) ∧
       splitInterval 30 0 75 = [(0, 30), (30, 60), (60, 75)]) :=
  ⟨by decide, by decide, planner_split_correct 30 0 75 (by decide) (by decide)⟩

/-! ## Fetch outcomes and the Concurrent Fetch Executor (spec §4.4, §7) -/

/-- Modelled from the spec: one time-stamped observation
`(timestamp, value, quality flag)` of a Fetch Result. -/
structure Obs where
  ts : Nat
  val : Int
  flag : Nat
deriving DecidableEq, Repr

/-- Modelled from the spec: the error taxonomy of §7. -/
inductive ErrKind where
  | stationNotFound
  | productUnsupported
  | transient
  | rateLimited
  | malformed
  | timedOut
  | cancelled
deriving DecidableEq, Repr

/-- Modelled from the spec: `Transient` and `RateLimited` are the only
retryable error kinds. -/
def retryable : ErrKind → Bool
  | .transient => true
  | .rateLimited => true
  | _ => false

/-- Modelled from the spec: a Fetch Result is either a Success carrying
the ordered observation sequence or a Failure carrying its error kind. -/
inductive FetchOutcome where
  | success (obs : List Obs)
  | failure (k : ErrKind)
deriving DecidableEq, Repr

/-- Modelled from the spec: the Executor's retry loop for one Sub-query.
`f i` is the adapter outcome of attempt number `i`; `remaining` is the
number of further attempts still allowed.  On a retryable failure with
attempts remaining the Executor retries, otherwise the outcome is
terminal.  Returns the terminal outcome and the number of attempts
performed. -/
def runFrom (f : Nat → FetchOutcome) (attempt : Nat) : Nat → FetchOutcome × Nat
  | 0 => (f attempt, attempt + 1)
  | r + 1 =>
    match f attempt with
    | .success obs => (.success obs, attempt + 1)
    | .failure k =>
      if retryable k then runFrom f (attempt + 1) r else (.failure k, attempt + 1)

/-- Modelled from the spec: run one Sub-query with at most `maxAttempts`
adapter invocations. -/
def runSubquery (f : Nat → FetchOutcome) (maxAttempts : Nat) : FetchOutcome × Nat :=
  runFrom f 0 (maxAttempts - 1)

/-- Modelled from the spec: exponential backoff, base delay times
`2 ^ attempt`, capped at `cap`. -/
def backoffDelay (base cap attempt : Nat) : Nat :=
  min (base * 2 ^ attempt) cap

theorem runFrom_zero (f : Nat → FetchOutcome) (attempt : Nat) :
    runFrom f attempt 0 = (f attempt, attempt + 1) := rfl

theorem runFrom_succ_success (f : Nat → FetchOutcome) (attempt r : Nat) (obs : List Obs)
    (hf : f attempt = .success obs) :
    runFrom f attempt (r + 1) = (.success obs, attempt + 1) := by
  simp [runFrom, hf]

theorem runFrom_succ_retry (f : Nat → FetchOutcome) (attempt r : Nat) (k : ErrKind)
    (hf : f attempt = .failure k) (h : retryable k = true) :
    runFrom f attempt (r + 1) = runFrom f (attempt + 1) r := by
  simp [runFrom, hf, h]

theorem runFrom_succ_stop (f : Nat → FetchOutcome) (attempt r : Nat) (k : ErrKind)
    (hf : f attempt = .failure k) (h : ¬retryable k = true) :
    runFrom f attempt (r + 1) = (.failure k, attempt + 1) := by
  simp [runFrom, hf, h]

theorem runFrom_attempts_le (f : Nat → FetchOutcome) :
    ∀ r attempt, (runFrom f attempt r).2 ≤ attempt + r + 1 := by
  intro r
  induction r with
  | zero =>
    intro attempt
    rw [runFrom_zero]
  | succ n ih =>
    intro attempt
    cases hf : f attempt with
    | success obs =>
      rw [runFrom_succ_success f attempt n obs hf]
      omega
    | failure k =>
      by_cases h : retryable k = true
      · rw [runFrom_succ_retry f attempt n k hf h]
        have := ih (attempt + 1)
        omega
      · rw [runFrom_succ_stop f attempt n k hf h]
        omega

theorem runFrom_retry_only_retryable (f : Nat → FetchOutcome) :
    ∀ r attempt i, attempt ≤ i → i + 1 < (runFrom f attempt r).2 →
      ∃ k, f i = .failure k ∧ retryable k = true := by
  intro r
  induction r with
  | zero =>
    intro attempt i hle hlt
    rw [runFrom_zero] at hlt
    omega
  | succ n ih =>
    intro attempt i hle hlt
    cases hf : f attempt with
    | success obs =>
      rw [runFrom_succ_success f attempt n obs hf] at hlt
      omega
    | failure k =>
      by_cases h : retryable k = true
      · rw [runFrom_succ_retry f attempt n k hf h] at hlt
        rcases Nat.lt_or_ge i (attempt + 1) with hi | hi
        · have : i = attempt := by omega
          subst this
          exact ⟨k, hf, h⟩
        · exact ih (attempt + 1) i hi hlt
      · rw [runFrom_succ_stop f attempt n k hf h] at hlt
        omega

/-- C6: the Executor performs at most `maxAttempts` attempts per
Sub-query, every non-final attempt failed with a retryable (`Transient`
or `RateLimited`) error, and the backoff delay between consecutive
attempts strictly increases until it reaches the cap. -/
theorem executor_retry_policy (f : Nat → FetchOutcome) (maxAttempts base cap : Nat)
    (hm : 0 < maxAttempts) (hb : 0 < base) :
    (runSubquery f maxAttempts).2 ≤ maxAttempts ∧
    (∀ i, i + 1 < (runSubquery f maxAttempts).2 →
      ∃ k, f i = .failure k ∧ retryable k = true) ∧
    (∀ i, backoffDelay base cap i < backoffDelay base cap (i + 1) ∨
      backoffDelay base cap (i + 1) = cap) := by
  refine ⟨?_, ?_, ?_⟩
  · have := runFrom_attempts_le f (maxAttempts - 1) 0
    simp only [runSubquery]
    omega
  · intro i hi
    exact runFrom_retry_only_retryable f (maxAttempts - 1) 0 i (Nat.zero_le i) hi
  · intro i
    by_cases h : cap ≤ base * 2 ^ (i + 1)
    · right
      simp [backoffDelay, Nat.min_eq_right h]
    · left
      push_neg at h
      have h2 : base * 2 ^ (i + 1) = base * 2 ^ i * 2 := by ring
      have h1 : 1 ≤ base * 2 ^ i := by
        have : 1 ≤ 2 ^ i := Nat.one_le_two_pow
        exact Nat.le_trans this (Nat.le_mul_of_pos_left _ hb)
      have hlt : base * 2 ^ i < base * 2 ^ (i + 1) := by omega
      have hmin : backoffDelay base cap (i + 1) = base * 2 ^ (i + 1) :=
        Nat.min_eq_left (Nat.le_of_lt h)
      have : backoffDelay base cap i ≤ base * 2 ^ i := Nat.min_le_left _ _
      omega

/-- Witness for C6: a Sub-query whose adapter always reports
`Transient`, run with `maxAttempts = 3`, base delay 1, cap 5. -/
theorem executor_retry_policy_witness :
    0 < 3 ∧ 0 < 1 ∧
      ((runSubquery (fun _ => .failure .transient) 3).2 ≤ 3 ∧
       (∀ i, i + 1 < (runSubquery (fun _ => .failure .transient) 3).2 →
         ∃ k, (fun _ : Nat => FetchOutcome.failure .transient) i = .failure k ∧
           retryable k = true) ∧
       (∀ i, backoffDelay 1 5 i < backoffDelay 1 5 (i + 1) ∨
         backoffDelay 1 5 (i + 1) = 5)) :=
  ⟨by decide, by decide,
    executor_retry_policy (fun _ => .failure .transient) 3 1 5 (by decide) (by decide)⟩

/-- Modelled from the spec: one Sub-query as consumed by the Executor.
The `oracle` field stands for the provider adapter's behaviour for this
Sub-query: the adapter outcome of each attempt number. -/
structure SubQ where
  station : Nat
  product : Nat
  qstart : Nat
  qstop : Nat
  oracle : Nat → FetchOutcome

/-- Modelled from the spec: the Executor runs every Sub-query of a batch
to its terminal outcome; no Sub-query's outcome depends on any sibling. -/
def execute (sqs : List SubQ) (maxAttempts : Nat) : List (SubQ × FetchOutcome) :=
  sqs.map fun sq => (sq, (runSubquery sq.oracle maxAttempts).1)

/-- Successful outcomes of a batch, the rows feeding the Aggregator. -/
def successResults (res : List (SubQ × FetchOutcome)) : List (SubQ × List Obs) :=
  res.filterMap fun r =>
    match r.2 with
    | .success obs => some (r.1, obs)
    | .failure _ => none

/-- Modelled from the spec: the Failure Report, the Sub-queries that
never succeeded together with their final error. -/
def failureReport (res : List (SubQ × FetchOutcome)) : List (SubQ × ErrKind) :=
  res.filterMap fun r =>
    match r.2 with
    | .success _ => none
    | .failure k => some (r.1, k)

/-- C5: a Sub-query that exhausts its retries records a terminal Failure
without removing, delaying or cancelling any sibling's result: the batch
always completes with one outcome per Sub-query, each sibling's outcome
is exactly what it would be in isolation, and a failing Sub-query
contributes only a Failure Report entry while every sibling success stays
present. -/
theorem executor_failure_isolation (l₁ l₂ : List SubQ) (sq : SubQ) (m : Nat) :
    execute (l₁ ++ sq :: l₂) m
      = execute l₁ m ++ (sq, (runSubquery sq.oracle m).1) :: execute l₂ m ∧
    (execute (l₁ ++ sq :: l₂) m).length = l₁.length + 1 + l₂.length ∧
    (∀ k, (runSubquery sq.oracle m).1 = .failure k →
      failureReport (execute (l₁ ++ sq :: l₂) m)
        = failureReport (execute l₁ m) ++ (sq, k) :: failureReport (execute l₂ m) ∧
      successResults (execute (l₁ ++ sq :: l₂) m)
        = successResults (execute l₁ m) ++ successResults (execute l₂ m)) := by
  have hsplit : execute (l₁ ++ sq :: l₂) m
      = execute l₁ m ++ (sq, (runSubquery sq.oracle m).1) :: execute l₂ m := by
    simp [execute]
  refine ⟨hsplit, ?_, ?_⟩
  · simp [execute]
    omega
  · intro k hk
    rw [hsplit]
    constructor
    · simp [failureReport, List.filterMap_append, hk]
    · simp [successResults, List.filterMap_append, hk]

/-- Witness for C5: a two-element batch in which the second Sub-query
always fails with `Transient` and exhausts its retries. -/
theorem executor_failure_isolation_witness :
    (runSubquery (fun _ => FetchOutcome.failure .transient) 2).1 = .failure .transient →
      failureReport (execute ([⟨1, 0, 0, 10, fun _ => .success [⟨0, 3, 0⟩]⟩] ++
          ⟨2, 0, 0, 10, fun _ => .failure .transient⟩ :: []) 2)
        = failureReport (execute [⟨1, 0, 0, 10, fun _ => .success [⟨0, 3, 0⟩]⟩] 2) ++
            (⟨2, 0, 0, 10, fun _ => .failure .transient⟩, ErrKind.transient) ::
              failureReport (execute [] 2) ∧
      successResults (execute ([⟨1, 0, 0, 10, fun _ => .success [⟨0, 3, 0⟩]⟩] ++
          ⟨2, 0, 0, 10, fun _ => .failure .transient⟩ :: []) 2)
        = successResults (execute [⟨1, 0, 0, 10, fun _ => .success [⟨0, 3, 0⟩]⟩] 2) ++
            successResults (execute [] 2) :=
  fun hk =>
    (executor_failure_isolation [⟨1, 0, 0, 10, fun _ => .success [⟨0, 3, 0⟩]⟩] []
      ⟨2, 0, 0, 10, fun _ => .failure .transient⟩ 2).2.2 .transient hk

/-- Modelled from the spec: the Executor under a cancellation signal that
fires after `k` of the batch's Sub-queries have completed.  The first `k`
Sub-queries retain their gathered results; no later Sub-query is
scheduled, and each receives a synthesized `Cancelled` failure. -/
def executeCancel (sqs : List SubQ) (maxAttempts k : Nat) : List (SubQ × FetchOutcome) :=
  (sqs.take k).map (fun sq => (sq, (runSubquery sq.oracle maxAttempts).1)) ++
    (sqs.drop k).map (fun sq => (sq, .failure .cancelled))

theorem successResults_append (A B : List (SubQ × FetchOutcome)) :
    successResults (A ++ B) = successResults A ++ successResults B := by
  simp [successResults, List.filterMap_append]

theorem failureReport_append (A B : List (SubQ × FetchOutcome)) :
    failureReport (A ++ B) = failureReport A ++ failureReport B := by
  simp [failureReport, List.filterMap_append]

theorem successResults_cancelled (l : List SubQ) :
    successResults (l.map fun sq => (sq, FetchOutcome.failure .cancelled)) = [] := by
  induction l with
  | nil => rfl
  | cons a t ih => simp [successResults, List.filterMap_cons]

theorem failureReport_cancelled (l : List SubQ) :
    failureReport (l.map fun sq => (sq, FetchOutcome.failure .cancelled))
      = l.map fun sq => (sq, ErrKind.cancelled) := by
  induction l with
  | nil => rfl
  | cons a t ih => simpa [failureReport, List.filterMap_cons] using ih

/-- C8: when the cancellation signal fires after `k` of `n` Sub-queries
complete, the returned results are exactly those of the first `k`
Sub-queries (the table's successes are unchanged), no unstarted Sub-query
is run, and each of the remaining `n - k` Sub-queries appears in the
Failure Report as a synthesized `Cancelled` failure. -/
theorem executor_cancellation (sqs : List SubQ) (m k : Nat) (_h : k ≤ sqs.length) :
    executeCancel sqs m k
      = execute (sqs.take k) m ++ (sqs.drop k).map (fun sq => (sq, .failure .cancelled)) ∧
    successResults (executeCancel sqs m k) = successResults (execute (sqs.take k) m) ∧
    failureReport (executeCancel sqs m k)
      = failureReport (execute (sqs.take k) m) ++
          (sqs.drop k).map (fun sq => (sq, ErrKind.cancelled)) ∧
    ((sqs.drop k).map (fun sq => (sq, ErrKind.cancelled))).length = sqs.length - k := by
  refine ⟨rfl, ?_, ?_, by simp⟩
  · show successResults (execute (sqs.take k) m ++
        (sqs.drop k).map fun sq => (sq, FetchOutcome.failure .cancelled)) = _
    rw [successResults_append, successResults_cancelled, List.append_nil]
  · show failureReport (execute (sqs.take k) m ++
        (sqs.drop k).map fun sq => (sq, FetchOutcome.failure .cancelled)) = _
    rw [failureReport_append, failureReport_cancelled]

/-- Witness for C8: cancellation after 1 of 2 Sub-queries. -/
theorem executor_cancellation_witness :
    1 ≤ ([⟨1, 0, 0, 10, fun _ => FetchOutcome.success [⟨0, 3, 0⟩]⟩,
          ⟨2, 0, 0, 10, fun _ => FetchOutcome.success [⟨0, 4, 0⟩]⟩] : List SubQ).length ∧
    successResults (executeCancel [⟨1, 0, 0, 10, fun _ => .success [⟨0, 3, 0⟩]⟩,
          ⟨2, 0, 0, 10, fun _ => .success [⟨0, 4, 0⟩]⟩] 2 1)
      = successResults (execute (([⟨1, 0, 0, 10, fun _ => .success [⟨0, 3, 0⟩]⟩,
          ⟨2, 0, 0, 10, fun _ => .success [⟨0, 4, 0⟩]⟩] : List SubQ).take 1) 2) :=
  ⟨by decide,
    (executor_cancellation [⟨1, 0, 0, 10, fun _ => .success [⟨0, 3, 0⟩]⟩,
      ⟨2, 0, 0, 10, fun _ => .success [⟨0, 4, 0⟩]⟩] 2 1 (by decide)).2.1⟩

/-! ## Caller input validation (spec §7) -/

/-- Modelled from the spec: the malformed-caller-input error cases of the
propagation policy in §7. -/
inductive CallError where
  | emptyStations
  | invalidInterval
  | unknownProvider
deriving DecidableEq, Repr

/-- Modelled from the spec and docs: the providers the library knows. -/
def knownProviders : List String :=
  ["COOPS", "IOC", "USGS", "CHS", "NDBC", "USACE"]

/-- Modelled from the spec: synchronous validation of caller input
before any planning or network activity. -/
def validateRequest (stations : List Nat) (provider : String) (qstart qstop : Nat) :
    Option CallError :=
  if stations.isEmpty then some .emptyStations
  else if qstop ≤ qstart then some .invalidInterval
  else if !(knownProviders.contains provider) then some .unknownProvider
  else none

/-- Modelled from the spec: a planned Sub-query before dispatch. -/
structure PlannedSq where
  station : Nat
  qstart : Nat
  qstop : Nat
deriving DecidableEq, Repr

/-- Modelled from the spec: the Planner emits one Sub-query per
(station, sub-interval). -/
def plan (stations : List Nat) (maxSpan qstart qstop : Nat) : List PlannedSq :=
  stations.flatMap fun s => (splitInterval maxSpan qstart qstop).map fun p => ⟨s, p.1, p.2⟩

/-- Modelled from the spec: the full `fetch` call.  Validation runs
first; on a validation error the call fails synchronously, performing no
planning and no adapter invocation.  The second component counts adapter
`fetch` invocations (network activity): on the success path it is the sum
of attempts performed per Sub-query. -/
def fetchCall (stations : List Nat) (provider : String)
    (maxSpan qstart qstop maxAttempts : Nat) (oracle : Nat → Nat → FetchOutcome) :
    Except CallError (List (PlannedSq × FetchOutcome)) × Nat :=
  match validateRequest stations provider qstart qstop with
  | some e => (.error e, 0)
  | none =>
    let runs := (plan stations maxSpan qstart qstop).map fun sq =>
      (sq, runSubquery (oracle sq.station) maxAttempts)
    (.ok (runs.map fun r => (r.1, r.2.1)), (runs.map fun r => r.2.2).sum)

/-- C7: malformed caller input — an empty station set, `qstart ≥ qstop`,
or an unknown provider — fails the whole call synchronously with a
`CallError`, before any network activity: no Sub-query result is produced
and the count of adapter fetch invocations is zero. -/
theorem malformed_input_fails_synchronously (stations : List Nat) (provider : String)
    (maxSpan qstart qstop maxAttempts : Nat) (oracle : Nat → Nat → FetchOutcome)
    (h : stations = [] ∨ qstop ≤ qstart ∨ knownProviders.contains provider = false) :
    ∃ e, fetchCall stations provider maxSpan qstart qstop maxAttempts oracle = (.error e, 0) := by
  rcases h with h | h | h
  · subst h
    exact ⟨.emptyStations, rfl⟩
  · refine ⟨?_, ?_⟩
    · exact if stations.isEmpty then .emptyStations else .invalidInterval
    · simp only [fetchCall, validateRequest, if_pos h]
      by_cases he : stations.isEmpty
      · simp [he]
      · simp [he]
  · by_cases he : stations.isEmpty
    · exact ⟨.emptyStations, by simp [fetchCall, validateRequest, he]⟩
    · by_cases hi : qstop ≤ qstart
      · exact ⟨.invalidInterval, by simp [fetchCall, validateRequest, he, hi]⟩
      · have hmem : provider ∉ knownProviders := by simpa using h
        exact ⟨.unknownProvider, by simp [fetchCall, validateRequest, he, hi, hmem]⟩

/-- Witness for C7: an unknown provider fails the call with no network
activity. -/
theorem malformed_input_fails_synchronously_witness :
    (([7] : List Nat) = [] ∨ (10 : Nat) ≤ 0 ∨ knownProviders.contains "NOAAX" = false) ∧
    ∃ e, fetchCall [7] "NOAAX" 30 0 10 3 (fun _ _ => .failure .transient) = (.error e, 0) :=
  ⟨by decide,
    malformed_input_fails_synchronously [7] "NOAAX" 30 0 10 3
      (fun _ _ => .failure .transient) (by decide)⟩

/-! ## Keep-last deduplication, shared by the Catalog Builder (dedup on
(provider, id) keeping the most recently fetched record) and the Result
Aggregator (seam tie-break keeping the later chunk's value). -/

/-- Keep, for every key, only the last element of the list carrying that
key.  An element is dropped exactly when a later element has the same
key. -/
def dedupLastBy {α κ : Type} [DecidableEq κ] (key : α → κ) : List α → List α
  | [] => []
  | a :: l =>
    if l.any (fun b => decide (key b = key a)) then dedupLastBy key l
    else a :: dedupLastBy key l

theorem mem_of_mem_dedupLastBy {α κ : Type} [DecidableEq κ] (key : α → κ) :
    ∀ l a, a ∈ dedupLastBy key l → a ∈ l := by
  intro l
  induction l with
  | nil => intro a ha; simp [dedupLastBy] at ha
  | cons b t ih =>
    intro a ha
    by_cases h : t.any (fun c => decide (key c = key b)) = true
    · rw [dedupLastBy, if_pos h] at ha
      exact List.mem_cons_of_mem b (ih a ha)
    · rw [dedupLastBy, if_neg h] at ha
      rcases List.mem_cons.mp ha with rfl | ha
      · exact List.mem_cons_self _ _
      · exact List.mem_cons_of_mem b (ih a ha)

theorem dedupLastBy_pairwise_ne {α κ : Type} [DecidableEq κ] (key : α → κ) :
    ∀ l, (dedupLastBy key l).Pairwise (fun a b => key a ≠ key b) := by
  intro l
  induction l with
  | nil => simp [dedupLastBy]
  | cons b t ih =>
    by_cases h : t.any (fun c => decide (key c = key b)) = true
    · rw [dedupLastBy, if_pos h]; exact ih
    · rw [dedupLastBy, if_neg h]
      refine List.Pairwise.cons ?_ ih
      intro a ha hkey
      have hmem : a ∈ t := mem_of_mem_dedupLastBy key t a ha
      have : t.any (fun c => decide (key c = key b)) = true :=
        List.any_eq_true.mpr ⟨a, hmem, by simp [hkey]⟩
      exact h this

theorem exists_key_dedupLastBy {α κ : Type} [DecidableEq κ] (key : α → κ) :
    ∀ l a, a ∈ l → ∃ b ∈ dedupLastBy key l, key b = key a := by
  intro l
  induction l with
  | nil => intro a ha; simp at ha
  | cons c t ih =>
    intro a ha
    by_cases h : t.any (fun d => decide (key d = key c)) = true
    · rw [dedupLastBy, if_pos h]
      rcases List.mem_cons.mp ha with rfl | ha
      · rcases List.any_eq_true.mp h with ⟨d, hd, hkd⟩
        have hkd' : key d = key a := by simpa using hkd
        rcases ih d hd with ⟨b, hb, hkb⟩
        exact ⟨b, hb, hkb.trans hkd'⟩
      · exact ih a ha
    · rw [dedupLastBy, if_neg h]
      rcases List.mem_cons.mp ha with rfl | ha
      · exact ⟨a, List.mem_cons_self _ _, rfl⟩
      · rcases ih a ha with ⟨b, hb, hkb⟩
        exact ⟨b, List.mem_cons_of_mem c hb, hkb⟩

theorem dedupLastBy_keeps_last {α κ : Type} [DecidableEq κ] (key : α → κ) :
    ∀ l y, y ∈ dedupLastBy key l →
      (l.filter fun x => decide (key x = key y)).getLast? = some y := by
  intro l
  induction l with
  | nil => intro y hy; simp [dedupLastBy] at hy
  | cons a t ih =>
    intro y hy
    by_cases h : t.any (fun b => decide (key b = key a)) = true
    · rw [dedupLastBy, if_pos h] at hy
      have hrec := ih y hy
      by_cases hk : key a = key y
      · rw [List.filter_cons_of_pos (by simp [hk])]
        have hymem : y ∈ t := mem_of_mem_dedupLastBy key t y hy
        have hne : (t.filter fun x => decide (key x = key y)) ≠ [] := by
          intro hnil
          have : y ∈ t.filter fun x => decide (key x = key y) :=
            List.mem_filter.mpr ⟨hymem, by simp⟩
          rw [hnil] at this
          simp at this
        rcases List.exists_cons_of_ne_nil hne with ⟨b, bs, hbs⟩
        rw [hbs, List.getLast?_cons_cons]
        rw [hbs] at hrec
        exact hrec
      · rw [List.filter_cons_of_neg (by simp [hk])]
        exact hrec
    · rw [dedupLastBy, if_neg h] at hy
      rcases List.mem_cons.mp hy with rfl | hy
      · rw [List.filter_cons_of_pos (by simp)]
        have hnil : (t.filter fun x => decide (key x = key y)) = [] := by
          rw [List.filter_eq_nil_iff]
          intro x hx
          simp only [decide_eq_true_eq]
          intro hkx
          exact h (List.any_eq_true.mpr ⟨x, hx, by simp [hkx]⟩)
        rw [hnil]
        rfl
      · have hky : key a ≠ key y := by
          intro hk
          have hymem : y ∈ t := mem_of_mem_dedupLastBy key t y hy
          exact h (List.any_eq_true.mpr ⟨y, hymem, by simp [hk]⟩)
        rw [List.filter_cons_of_neg (by simp [hky])]
        exact ih y hy

/-! ## Station Catalog Builder (spec §4.2) -/

/-- Modelled from the spec: a Station record of the common schema.
`hasLoc` is false for stations lacking a location.  The catalog list is
in fetch order: a later record with the same (provider, id) key is the
more recently fetched one. -/
structure Station where
  provider : Nat
  sid : Nat
  hasLoc : Bool
  lon : Int
  lat : Int
  fetchedAt : Nat
deriving DecidableEq, Repr

/-- The globally unique station key (provider, id). -/
def Station.key (s : Station) : Nat × Nat := (s.provider, s.sid)

/-- Modelled from the spec: `get_stations`.  Point-in-polygon evaluation
is an external collaborator (spec §1), so the region is an abstract
inside-or-on-boundary test on the station's location.  When a region is
given, stations without a location are dropped first, then only stations
whose location lies inside or on the boundary are kept; attribute
filters are applied next; finally records are deduplicated on
(provider, id) keeping the most recently fetched one. -/
def get_stations (catalog : List Station) (region : Option (Int → Int → Bool))
    (filt : Station → Bool) : List Station :=
  let located : List Station :=
    match region with
    | none => catalog
    | some inR => (catalog.filter (fun s => s.hasLoc)).filter (fun s => inR s.lon s.lat)
  dedupLastBy Station.key (located.filter filt)

/-- Scenario station covered by the region (spec §8). -/
def stationCovered : Station := ⟨1, 100, true, 10, 20, 5⟩

/-- Scenario station of the same provider excluded by the region. -/
def stationExcluded : Station := ⟨1, 200, true, 50, 60, 5⟩

/-- Scenario region: a bounding polygon containing `stationCovered` and
excluding `stationExcluded` (inside-or-on-boundary test). -/
def scenarioRegion (x y : Int) : Bool :=
  decide (0 ≤ x) && decide (x ≤ 30) && decide (0 ≤ y) && decide (y ≤ 30)

/-- An older catalog record of station (2, 300), fetched at time 1. -/
def stationStale : Station := ⟨2, 300, true, 11, 21, 1⟩

/-- A more recently fetched record of the same station (2, 300), fetched
at time 2 and appearing later in the fetch-ordered catalog list. -/
def stationFresh : Station := ⟨2, 300, true, 12, 22, 2⟩

/-- The candidate records surviving the Catalog Builder's region and
attribute filtering, in fetch order, before deduplication. -/
def regionCandidates (catalog : List Station) (inR : Int → Int → Bool)
    (filt : Station → Bool) : List Station :=
  ((catalog.filter (fun s => s.hasLoc)).filter (fun s => inR s.lon s.lat)).filter filt

/-- C9: with a region given, `get_stations` keeps exactly stations that
have a location lying inside or on the boundary of the region and pass
the attribute filters, deduplicated on (provider, id) keeping the most
recently fetched record: every output station is the last — most
recently fetched — surviving record with its key in the fetch-ordered
candidate list.  The §8 scenario — a polygon covering one known station
and excluding another of the same provider — yields exactly the covered
station, and a catalog holding a stale and a fresh record of the same
(provider, id) yields exactly the fresh one. -/
theorem catalog_region_filtering (catalog : List Station) (inR : Int → Int → Bool)
    (filt : Station → Bool) :
    (∀ s ∈ get_stations catalog (some inR) filt,
      s ∈ catalog ∧ s.hasLoc = true ∧ inR s.lon s.lat = true ∧ filt s = true) ∧
    (∀ s ∈ catalog, s.hasLoc = true → inR s.lon s.lat = true → filt s = true →
      ∃ t ∈ get_stations catalog (some inR) filt, Station.key t = Station.key s) ∧
    (get_stations catalog (some inR) filt).Pairwise
      (fun a b => Station.key a ≠ Station.key b) ∧
    (∀ s ∈ get_stations catalog (some inR) filt,
      ((regionCandidates catalog inR filt).filter
        (fun x => decide (Station.key x = Station.key s))).getLast? = some s) ∧
    get_stations [stationCovered, stationExcluded] (some scenarioRegion)
      (fun _ => true) = [stationCovered] ∧
    get_stations [stationStale, stationFresh] (some scenarioRegion)
      (fun _ => true) = [stationFresh] := by
  refine ⟨?_, ?_, dedupLastBy_pairwise_ne Station.key _, ?_, by decide, by decide⟩
  · intro s hs
    have hmem := mem_of_mem_dedupLastBy Station.key _ s hs
    rcases List.mem_filter.mp hmem with ⟨hloc, hfilt⟩
    rcases List.mem_filter.mp hloc with ⟨hcat, hreg⟩
    rcases List.mem_filter.mp hcat with ⟨hcat', hhas⟩
    exact ⟨hcat', hhas, hreg, hfilt⟩
  · intro s hs hloc hreg hfilt
    apply exists_key_dedupLastBy
    exact List.mem_filter.mpr ⟨List.mem_filter.mpr ⟨List.mem_filter.mpr ⟨hs, hloc⟩, hreg⟩, hfilt⟩
  · intro s hs
    exact dedupLastBy_keeps_last Station.key _ s hs

/-- Witness for C9: the covered station satisfies the characterization at
the scenario inputs, and the fresh duplicate record is the one the
keep-most-recent conclusion pins down. -/
theorem catalog_region_filtering_witness :
    stationCovered ∈ get_stations [stationCovered, stationExcluded] (some scenarioRegion)
      (fun _ => true) ∧
    (stationCovered ∈ [stationCovered, stationExcluded] ∧ stationCovered.hasLoc = true ∧
      scenarioRegion stationCovered.lon stationCovered.lat = true ∧
      (fun _ : Station => true) stationCovered = true) ∧
    stationFresh ∈ get_stations [stationStale, stationFresh] (some scenarioRegion)
      (fun _ => true) ∧
    ((regionCandidates [stationStale, stationFresh] scenarioRegion (fun _ => true)).filter
      (fun x => decide (Station.key x = Station.key stationFresh))).getLast?
        = some stationFresh :=
  ⟨by decide,
    (catalog_region_filtering [stationCovered, stationExcluded] scenarioRegion
      (fun _ => true)).1 stationCovered (by decide),
    by decide,
    (catalog_region_filtering [stationStale, stationFresh] scenarioRegion
      (fun _ => true)).2.2.2.1 stationFresh (by decide)⟩

/-! ## USACE RiverGages adapter (docs, src/unnamed/part_002) -/

/-- An HTTP request as issued by an adapter's client, retaining whether
the client verifies TLS certificates. -/
structure HttpRequest where
  url : String
  verifySSL : Bool
deriving DecidableEq, Repr

/-- Modelled from the spec: the in-repo USACE documentation states that
the `httpx.Client` used by the USACE RiverGages adapter is constructed
with `verify=False` to bypass SSL verification, as the only way to
access the USACE RiverGages API.  The adapter code itself is absent from
the snapshot. -/
def usaceClientVerify : Bool := false

/-- Modelled from the spec: `get_usace_station` issues one request for an
individual station over the given date range, through the USACE client. -/
def get_usace_station (station qstart qstop : Nat) : List HttpRequest :=
  [⟨"rivergages/" ++ toString station ++ "/" ++ toString qstart ++ "-" ++ toString qstop,
    usaceClientVerify⟩]

/-- Modelled from the spec: `fetch_usace` fetches multiple stations by
issuing each station's request through the same USACE client. -/
def fetch_usace (stations : List Nat) (qstart qstop : Nat) : List HttpRequest :=
  stations.flatMap fun s => get_usace_station s qstart qstop

/-- C10: every request issued by the USACE adapter (`get_usace_station`
and `fetch_usace`) is made by a client constructed with SSL verification
disabled; no input produces a TLS-verified request. -/
theorem usace_requests_never_verified (stations : List Nat) (station qstart qstop : Nat) :
    (∀ r ∈ get_usace_station station qstart qstop, r.verifySSL = false) ∧
    (∀ r ∈ fetch_usace stations qstart qstop, r.verifySSL = false) := by
  constructor
  · intro r hr
    simp [get_usace_station] at hr
    subst hr
    rfl
  · intro r hr
    simp [fetch_usace, get_usace_station] at hr
    rcases hr with ⟨s, _, rfl⟩
    rfl

/-- Witness for C10: the single request of a concrete USACE fetch is
unverified. -/
theorem usace_requests_never_verified_witness :
    (⟨"rivergages/42/0-10", usaceClientVerify⟩ : HttpRequest) ∈ fetch_usace [42] 0 10 ∧
    (⟨"rivergages/42/0-10", usaceClientVerify⟩ : HttpRequest).verifySSL = false :=
  ⟨by decide,
    (usace_requests_never_verified [42] 42 0 10).2
      ⟨"rivergages/42/0-10", usaceClientVerify⟩ (by decide)⟩

/-! ## Result Aggregator / Normalizer (spec §4.5) -/

/-- Modelled from the spec: the successful payload of one Sub-query — a
chunk — tagged with its station, product and half-open sub-interval
`[cstart, cstop)`, carrying the chronologically ordered observations
parsed from the provider.  A provider whose inclusive boundary disagrees
with the half-open contract may report an observation at `cstop` itself. -/
structure Chunk where
  station : Nat
  product : Nat
  cstart : Nat
  cstop : Nat
  obs : List Obs
deriving DecidableEq, Repr

/-- One entry of the Unified Observation Table: the (station, product,
timestamp) index together with its value and quality flag. -/
structure Row where
  station : Nat
  product : Nat
  ts : Nat
  val : Int
  flag : Nat
deriving DecidableEq, Repr

/-- The table index of a row. -/
def Row.key (r : Row) : Nat × Nat × Nat := (r.station, r.product, r.ts)

/-- Non-strict lexicographic order on the (station, product, timestamp)
index of rows. -/
def rowLeB (a b : Row) : Bool :=
  decide (a.station < b.station) ||
    (a.station == b.station &&
      (decide (a.product < b.product) ||
        (a.product == b.product && decide (a.ts ≤ b.ts))))

/-- Strict lexicographic order on the (station, product, timestamp)
index of rows. -/
def rowLtB (a b : Row) : Bool :=
  decide (a.station < b.station) ||
    (a.station == b.station &&
      (decide (a.product < b.product) ||
        (a.product == b.product && decide (a.ts < b.ts))))

theorem rowLeB_iff (a b : Row) : rowLeB a b = true ↔
    (a.station < b.station ∨ (a.station = b.station ∧
      (a.product < b.product ∨ (a.product = b.product ∧ a.ts ≤ b.ts)))) := by
  simp [rowLeB]

theorem rowLtB_iff (a b : Row) : rowLtB a b = true ↔
    (a.station < b.station ∨ (a.station = b.station ∧
      (a.product < b.product ∨ (a.product = b.product ∧ a.ts < b.ts)))) := by
  simp [rowLtB]

theorem rowLeB_ne_lt (a b : Row) (hle : rowLeB a b = true)
    (hne : Row.key a ≠ Row.key b) : rowLtB a b = true := by
  rw [rowLeB_iff] at hle
  rw [rowLtB_iff]
  have hne' : ¬(a.station = b.station ∧ a.product = b.product ∧ a.ts = b.ts) := by
    intro h
    exact hne (by simp [Row.key, h.1, h.2.1, h.2.2])
  omega

theorem rowLtB_key_ne (a b : Row) (hlt : rowLtB a b = true) :
    Row.key a ≠ Row.key b := by
  rw [rowLtB_iff] at hlt
  intro h
  simp only [Row.key, Prod.mk.injEq] at h
  omega

theorem rowLtB_le (a b : Row) (hlt : rowLtB a b = true) : rowLeB a b = true := by
  rw [rowLtB_iff] at hlt
  rw [rowLeB_iff]
  omega

/-- Non-strict lexicographic order on chunks by (station, product,
sub-interval start): the order in which the Aggregator lays out the
chunks of the final table. -/
def ckeyLeB (a b : Chunk) : Bool :=
  decide (a.station < b.station) ||
    (a.station == b.station &&
      (decide (a.product < b.product) ||
        (a.product == b.product && decide (a.cstart ≤ b.cstart))))

/-- The chunk ordering as a proposition, for `List.insertionSort`. -/
def ChunkLe (a b : Chunk) : Prop := ckeyLeB a b = true

theorem chunkLe_iff (a b : Chunk) : ChunkLe a b ↔
    (a.station < b.station ∨ (a.station = b.station ∧
      (a.product < b.product ∨ (a.product = b.product ∧ a.cstart ≤ b.cstart)))) := by
  simp [ChunkLe, ckeyLeB]

instance : DecidableRel ChunkLe := fun _ _ => instDecidableEqBool _ _

instance : IsTotal Chunk ChunkLe := by
  refine ⟨fun a b => ?_⟩
  rw [chunkLe_iff, chunkLe_iff]
  omega

instance : IsTrans Chunk ChunkLe := by
  refine ⟨fun a b c hab hbc => ?_⟩
  rw [chunkLe_iff] at hab hbc ⊢
  omega

theorem chunkLe_antisymm_key (a b : Chunk) (hab : ChunkLe a b) (hba : ChunkLe b a) :
    a.station = b.station ∧ a.product = b.product ∧ a.cstart = b.cstart := by
  rw [chunkLe_iff] at hab hba
  omega

/-- Modelled from the spec: the Aggregator lays the chunks out by
(station, product, sub-interval start), independently of arrival order. -/
def sortChunks (rs : List Chunk) : List Chunk := List.insertionSort ChunkLe rs

/-- The table rows contributed by one chunk. -/
def Chunk.rows (c : Chunk) : List Row :=
  c.obs.map fun o => ⟨c.station, c.product, o.ts, o.val, o.flag⟩

/-- Modelled from the spec: `merge` — concatenate the chronologically
ordered chunks per (station, product); at chunk seams where two chunks
report the same timestamp, keep the value from the chunk covering the
later sub-interval and drop the duplicate; the final table is sorted by
(station, product, timestamp). -/
def mergeResults (rs : List Chunk) : List Row :=
  dedupLastBy Row.key ((sortChunks rs).flatMap Chunk.rows)

/-- Well-formedness of one successful chunk: a non-empty sub-interval, a
strictly chronologically ordered observation sequence, and observations
lying within the sub-interval (the inclusive upper boundary `cstop` is
allowed, as a provider's inclusive boundary may disagree with the
half-open contract). -/
def chunkWF (c : Chunk) : Prop :=
  c.cstart < c.cstop ∧
  c.obs.Pairwise (fun a b => a.ts < b.ts) ∧
  ∀ o ∈ c.obs, c.cstart ≤ o.ts ∧ o.ts ≤ c.cstop

/-- Two chunks of the same (station, product) cover disjoint
sub-intervals, as the Planner guarantees. -/
def chunksDisjoint (c d : Chunk) : Prop :=
  c.station = d.station → c.product = d.product →
    c.cstop ≤ d.cstart ∨ d.cstop ≤ c.cstart

theorem chunksDisjoint_symm : Symmetric chunksDisjoint := by
  intro c d h hsta hprod
  rcases h hsta.symm hprod.symm with h' | h'
  · exact Or.inr h'
  · exact Or.inl h'

/-- Well-formedness of a set of successful Fetch Results: every chunk is
well-formed and same-key chunks cover pairwise disjoint sub-intervals. -/
def resultsWF (rs : List Chunk) : Prop :=
  (∀ c ∈ rs, chunkWF c) ∧ rs.Pairwise chunksDisjoint

instance (c : Chunk) : Decidable (chunkWF c) := by
  unfold chunkWF
  infer_instance

instance (c d : Chunk) : Decidable (chunksDisjoint c d) := by
  unfold chunksDisjoint
  infer_instance

instance (rs : List Chunk) : Decidable (resultsWF rs) := by
  unfold resultsWF
  infer_instance

theorem dedup_pairwise_lt :
    ∀ rows : List Row, rows.Pairwise (fun a b => rowLeB a b = true) →
      (dedupLastBy Row.key rows).Pairwise (fun a b => rowLtB a b = true) := by
  intro rows
  induction rows with
  | nil => intro _; simp [dedupLastBy]
  | cons a t ih =>
    intro h
    rcases List.pairwise_cons.mp h with ⟨ha, ht⟩
    by_cases hany : t.any (fun b => decide (Row.key b = Row.key a)) = true
    · rw [dedupLastBy, if_pos hany]
      exact ih ht
    · rw [dedupLastBy, if_neg hany]
      refine List.Pairwise.cons ?_ (ih ht)
      intro x hx
      have hxmem : x ∈ t := mem_of_mem_dedupLastBy Row.key t x hx
      have hkey : Row.key a ≠ Row.key x := by
        intro hk
        exact hany (List.any_eq_true.mpr ⟨x, hxmem, by simp [hk]⟩)
      exact rowLeB_ne_lt a x (ha x hxmem) hkey

theorem chunk_rows_pairwise (c : Chunk) (h : chunkWF c) :
    c.rows.Pairwise (fun a b => rowLeB a b = true) := by
  rw [Chunk.rows, List.pairwise_map]
  refine h.2.1.imp ?_
  intro o1 o2 hts
  rw [rowLeB_iff]
  right
  exact ⟨rfl, Or.inr ⟨rfl, Nat.le_of_lt hts⟩⟩

theorem cross_chunk_rows_le (c d : Chunk) (hle : ChunkLe c d)
    (hdisj : chunksDisjoint c d) (hc : chunkWF c) (hd : chunkWF d)
    (r1 : Row) (hr1 : r1 ∈ c.rows) (r2 : Row) (hr2 : r2 ∈ d.rows) :
    rowLeB r1 r2 = true := by
  rcases List.mem_map.mp hr1 with ⟨o1, ho1, rfl⟩
  rcases List.mem_map.mp hr2 with ⟨o2, ho2, rfl⟩
  rw [chunkLe_iff] at hle
  rw [rowLeB_iff]
  simp only
  rcases hle with hlt | ⟨hsta, hrest⟩
  · exact Or.inl hlt
  · refine Or.inr ⟨hsta, ?_⟩
    rcases hrest with hlt | ⟨hprod, hstart⟩
    · exact Or.inl hlt
    · refine Or.inr ⟨hprod, ?_⟩
      rcases hdisj hsta hprod with hcd | hdc
      · have h1 := (hc.2.2 o1 ho1).2
        have h2 := (hd.2.2 o2 ho2).1
        omega
      · have := hd.1
        omega

theorem rows_pairwise_le :
    ∀ scs : List Chunk, scs.Pairwise ChunkLe → scs.Pairwise chunksDisjoint →
      (∀ c ∈ scs, chunkWF c) →
      (scs.flatMap Chunk.rows).Pairwise (fun a b => rowLeB a b = true) := by
  intro scs
  induction scs with
  | nil => intro _ _ _; simp
  | cons c rest ih =>
    intro hsorted hdisj hwf
    rcases List.pairwise_cons.mp hsorted with ⟨hc_le, hsorted'⟩
    rcases List.pairwise_cons.mp hdisj with ⟨hc_disj, hdisj'⟩
    have hcwf : chunkWF c := hwf c (List.mem_cons_self _ _)
    have hwf' : ∀ e ∈ rest, chunkWF e := fun e he => hwf e (List.mem_cons_of_mem _ he)
    rw [List.flatMap_cons]
    rw [List.pairwise_append]
    refine ⟨chunk_rows_pairwise c hcwf, ih hsorted' hdisj' hwf', ?_⟩
    intro r1 hr1 r2 hr2
    rcases List.mem_flatMap.mp hr2 with ⟨d, hd, hr2d⟩
    exact cross_chunk_rows_le c d (hc_le d hd) (hc_disj d hd) hcwf (hwf' d hd) r1 hr1 r2 hr2d

/-- C2: for every well-formed set of successful Fetch Results, the
Aggregator's merged table is strictly sorted by the lexicographic
(station, product, timestamp) order — hence sorted, free of duplicate
index entries, and with a strictly increasing time axis per
(station, product). -/
theorem aggregator_merge_sorted (rs : List Chunk) (h : resultsWF rs) :
    (mergeResults rs).Pairwise (fun a b => rowLtB a b = true) ∧
    (mergeResults rs).Pairwise (fun a b => Row.key a ≠ Row.key b) ∧
    (mergeResults rs).Pairwise (fun a b => rowLeB a b = true) := by
  have hperm : (sortChunks rs).Perm rs := List.perm_insertionSort ChunkLe rs
  have hsorted : (sortChunks rs).Pairwise ChunkLe :=
    List.sorted_insertionSort ChunkLe rs
  have hdisj : (sortChunks rs).Pairwise chunksDisjoint :=
    (hperm.pairwise_iff (fun hab => chunksDisjoint_symm hab)).mpr h.2
  have hwf : ∀ c ∈ sortChunks rs, chunkWF c := fun c hc => h.1 c (hperm.mem_iff.mp hc)
  have hrows := rows_pairwise_le (sortChunks rs) hsorted hdisj hwf
  have hlt : (mergeResults rs).Pairwise (fun a b => rowLtB a b = true) :=
    dedup_pairwise_lt _ hrows
  exact ⟨hlt, hlt.imp (fun hab => rowLtB_key_ne _ _ hab),
    hlt.imp (fun hab => rowLtB_le _ _ hab)⟩

/-- Witness for C2: two adjacent well-formed chunks of the same station
and product, with a duplicated seam timestamp. -/
theorem aggregator_merge_sorted_witness :
    resultsWF [⟨1, 0, 0, 10, [⟨2, 5, 0⟩, ⟨10, 6, 0⟩]⟩,
               ⟨1, 0, 10, 20, [⟨10, 7, 0⟩, ⟨15, 8, 0⟩]⟩] ∧
    ((mergeResults [⟨1, 0, 0, 10, [⟨2, 5, 0⟩, ⟨10, 6, 0⟩]⟩,
                    ⟨1, 0, 10, 20, [⟨10, 7, 0⟩, ⟨15, 8, 0⟩]⟩]).Pairwise
        (fun a b => rowLtB a b = true) ∧
     (mergeResults [⟨1, 0, 0, 10, [⟨2, 5, 0⟩, ⟨10, 6, 0⟩]⟩,
                    ⟨1, 0, 10, 20, [⟨10, 7, 0⟩, ⟨15, 8, 0⟩]⟩]).Pairwise
        (fun a b => Row.key a ≠ Row.key b) ∧
     (mergeResults [⟨1, 0, 0, 10, [⟨2, 5, 0⟩, ⟨10, 6, 0⟩]⟩,
                    ⟨1, 0, 10, 20, [⟨10, 7, 0⟩, ⟨15, 8, 0⟩]⟩]).Pairwise
        (fun a b => rowLeB a b = true)) :=
  ⟨by decide,
    aggregator_merge_sorted [⟨1, 0, 0, 10, [⟨2, 5, 0⟩, ⟨10, 6, 0⟩]⟩,
      ⟨1, 0, 10, 20, [⟨10, 7, 0⟩, ⟨15, 8, 0⟩]⟩] (by decide)⟩

/-- The table row contributed by observation `o` of chunk `c`. -/
def rowOf (c : Chunk) (o : Obs) : Row :=
  ⟨c.station, c.product, o.ts, o.val, o.flag⟩

theorem filter_ts_unique :
    ∀ l : List Obs, l.Pairwise (fun a b => a.ts < b.ts) →
      ∀ o ∈ l, (l.filter fun x => decide (x.ts = o.ts)) = [o] := by
  intro l
  induction l with
  | nil => intro _ o ho; simp at ho
  | cons a t ih =>
    intro hl o ho
    rcases List.pairwise_cons.mp hl with ⟨ha, ht⟩
    rcases List.mem_cons.mp ho with rfl | ho'
    · rw [List.filter_cons_of_pos (by simp)]
      have hnil : (t.filter fun x => decide (x.ts = o.ts)) = [] := by
        rw [List.filter_eq_nil_iff]
        intro x hx
        have := ha x hx
        simp only [decide_eq_true_eq]
        omega
      rw [hnil]
    · have hne : ¬(a.ts = o.ts) := by
        have := ha o ho'
        omega
      rw [List.filter_cons_of_neg (by simp [hne])]
      exact ih ht o ho'

/-- C3: at a chunk seam of the same (station, product) where the earlier
chunk reports an observation at its upper boundary and the later chunk
reports one at the same timestamp (its lower boundary), the merged table
keeps exactly the later chunk's row for that index and drops the earlier
chunk's: the later chunk's row is present, and every merged row with the
seam index equals it. -/
theorem aggregator_seam_tiebreak (c d : Chunk) (o1 o2 : Obs)
    (hc : chunkWF c) (hd : chunkWF d)
    (hsta : c.station = d.station) (hprod : c.product = d.product)
    (hseam : c.cstop = d.cstart)
    (h1 : o1 ∈ c.obs) (ht1 : o1.ts = c.cstop)
    (h2 : o2 ∈ d.obs) (ht2 : o2.ts = d.cstart) :
    rowOf d o2 ∈ mergeResults [c, d] ∧
    ∀ y ∈ mergeResults [c, d],
      Row.key y = Row.key (rowOf d o2) → y = rowOf d o2 := by
  have hts : o1.ts = o2.ts := by omega
  have hle : ChunkLe c d := by
    rw [chunkLe_iff]
    have := hc.1
    omega
  have hsort : sortChunks [c, d] = [c, d] := by
    show List.orderedInsert ChunkLe c [d] = [c, d]
    simp [List.orderedInsert, hle]
  have hflat : (sortChunks [c, d]).flatMap Chunk.rows = c.rows ++ d.rows := by
    rw [hsort]
    simp [List.flatMap_cons]
  have hmerge : mergeResults [c, d] = dedupLastBy Row.key (c.rows ++ d.rows) := by
    rw [mergeResults, hflat]
  have hfc : (c.rows.filter fun x => decide (Row.key x = Row.key (rowOf d o2)))
      = [rowOf c o1] := by
    rw [Chunk.rows, List.filter_map]
    have hcong : (c.obs.filter
        ((fun x => decide (Row.key x = Row.key (rowOf d o2))) ∘
          (fun o => (⟨c.station, c.product, o.ts, o.val, o.flag⟩ : Row))))
        = c.obs.filter (fun x => decide (x.ts = o1.ts)) := by
      apply List.filter_congr
      intro x _
      simp only [Function.comp, Row.key, rowOf]
      rw [decide_eq_decide]
      simp only [Prod.mk.injEq]
      constructor
      · rintro ⟨hA, hB, hC⟩
        omega
      · intro hC
        exact ⟨hsta, hprod, by omega⟩
    rw [hcong, filter_ts_unique c.obs hc.2.1 o1 h1]
    rfl
  have hfd : (d.rows.filter fun x => decide (Row.key x = Row.key (rowOf d o2)))
      = [rowOf d o2] := by
    rw [Chunk.rows, List.filter_map]
    have hcong : (d.obs.filter
        ((fun x => decide (Row.key x = Row.key (rowOf d o2))) ∘
          (fun o => (⟨d.station, d.product, o.ts, o.val, o.flag⟩ : Row))))
        = d.obs.filter (fun x => decide (x.ts = o2.ts)) := by
      apply List.filter_congr
      intro x _
      simp only [Function.comp, Row.key, rowOf]
      rw [decide_eq_decide]
      simp only [Prod.mk.injEq]
      constructor
      · rintro ⟨hA, hB, hC⟩
        omega
      · intro hC
        exact ⟨trivial, trivial, by omega⟩
    rw [hcong, filter_ts_unique d.obs hd.2.1 o2 h2]
    rfl
  have hfilter : ((c.rows ++ d.rows).filter
      fun x => decide (Row.key x = Row.key (rowOf d o2)))
      = [rowOf c o1, rowOf d o2] := by
    rw [List.filter_append, hfc, hfd]
    rfl
  constructor
  · have hmem0 : rowOf d o2 ∈ c.rows ++ d.rows :=
      List.mem_append_right _ (List.mem_map.mpr ⟨o2, h2, rfl⟩)
    rcases exists_key_dedupLastBy Row.key _ (rowOf d o2) hmem0 with ⟨b, hb, hkb⟩
    have hlast := dedupLastBy_keeps_last Row.key _ b hb
    have hfb : ((c.rows ++ d.rows).filter fun x => decide (Row.key x = Row.key b))
        = [rowOf c o1, rowOf d o2] := by
      rw [← hfilter]
      apply List.filter_congr
      intro x _
      rw [hkb]
    rw [hfb] at hlast
    have hb2 : b = rowOf d o2 := by
      have : ([rowOf c o1, rowOf d o2]).getLast? = some (rowOf d o2) := rfl
      rw [this] at hlast
      exact (Option.some.injEq _ _ ▸ hlast : _) ▸ rfl
    rw [hmerge]
    exact hb2 ▸ hb
  · intro y hy hky
    rw [hmerge] at hy
    have hlast := dedupLastBy_keeps_last Row.key _ y hy
    have hfy : ((c.rows ++ d.rows).filter fun x => decide (Row.key x = Row.key y))
        = [rowOf c o1, rowOf d o2] := by
      rw [← hfilter]
      apply List.filter_congr
      intro x _
      rw [hky]
    rw [hfy] at hlast
    have : ([rowOf c o1, rowOf d o2]).getLast? = some (rowOf d o2) := rfl
    rw [this] at hlast
    exact (Option.some_inj.mp hlast).symm

/-- Witness for C3: two concrete adjacent chunks with a duplicated seam
timestamp 10; the later chunk's value 7 is kept. -/
theorem aggregator_seam_tiebreak_witness :
    chunkWF ⟨1, 0, 0, 10, [⟨2, 5, 0⟩, ⟨10, 6, 0⟩]⟩ ∧
    chunkWF ⟨1, 0, 10, 20, [⟨10, 7, 0⟩, ⟨15, 8, 0⟩]⟩ ∧
    (rowOf ⟨1, 0, 10, 20, [⟨10, 7, 0⟩, ⟨15, 8, 0⟩]⟩ ⟨10, 7, 0⟩ ∈
        mergeResults [⟨1, 0, 0, 10, [⟨2, 5, 0⟩, ⟨10, 6, 0⟩]⟩,
                      ⟨1, 0, 10, 20, [⟨10, 7, 0⟩, ⟨15, 8, 0⟩]⟩] ∧
      ∀ y ∈ mergeResults [⟨1, 0, 0, 10, [⟨2, 5, 0⟩, ⟨10, 6, 0⟩]⟩,
                          ⟨1, 0, 10, 20, [⟨10, 7, 0⟩, ⟨15, 8, 0⟩]⟩],
        Row.key y = Row.key (rowOf ⟨1, 0, 10, 20, [⟨10, 7, 0⟩, ⟨15, 8, 0⟩]⟩ ⟨10, 7, 0⟩) →
          y = rowOf ⟨1, 0, 10, 20, [⟨10, 7, 0⟩, ⟨15, 8, 0⟩]⟩ ⟨10, 7, 0⟩) :=
  ⟨by decide, by decide,
    aggregator_seam_tiebreak ⟨1, 0, 0, 10, [⟨2, 5, 0⟩, ⟨10, 6, 0⟩]⟩
      ⟨1, 0, 10, 20, [⟨10, 7, 0⟩, ⟨15, 8, 0⟩]⟩ ⟨10, 6, 0⟩ ⟨10, 7, 0⟩
      (by decide) (by decide) (by decide) (by decide) (by decide)
      (by decide) (by decide) (by decide) (by decide)⟩

/-- Two sorted lists of chunks that are permutations of each other and
whose sort keys are pairwise distinct are equal.  This is the chunk-level
antisymmetry argument behind the Aggregator's arrival-order independence. -/
theorem sorted_perm_unique :
    ∀ l₁ l₂ : List Chunk, l₁.Perm l₂ →
      l₁.Pairwise ChunkLe → l₂.Pairwise ChunkLe →
      l₁.Pairwise (fun a b => ¬(ChunkLe a b ∧ ChunkLe b a)) →
      l₁ = l₂ := by
  intro l₁
  induction l₁ with
  | nil =>
    intro l₂ hperm _ _ _
    exact hperm.nil_eq
  | cons a t₁ ih =>
    intro l₂ hperm h₁ h₂ hanti
    cases l₂ with
    | nil => exact absurd hperm.symm.nil_eq (by simp)
    | cons b t₂ =>
      rcases List.pairwise_cons.mp h₁ with ⟨ha, ht₁⟩
      rcases List.pairwise_cons.mp h₂ with ⟨hb, ht₂⟩
      rcases List.pairwise_cons.mp hanti with ⟨hanti_a, hanti_t⟩
      by_cases hab : a = b
      · subst hab
        have htperm : t₁.Perm t₂ := (List.perm_cons a).mp hperm
        rw [ih t₂ htperm ht₁ ht₂ hanti_t]
      · exfalso
        have hbmem : b ∈ a :: t₁ := hperm.symm.subset (List.mem_cons_self _ _)
        have hbt₁ : b ∈ t₁ := by
          rcases List.mem_cons.mp hbmem with h | h
          · exact absurd h.symm hab
          · exact h
        have hamem : a ∈ b :: t₂ := hperm.subset (List.mem_cons_self _ _)
        have hat₂ : a ∈ t₂ := by
          rcases List.mem_cons.mp hamem with h | h
          · exact absurd h hab
          · exact h
        exact hanti_a b hbt₁ ⟨ha b hbt₁, hb a hat₂⟩

/-- C4: the merged Unified Observation Table is a deterministic function
of the set of successful Fetch Results: any two arrival orders of the
same well-formed results produce identical tables, so wall-clock
completion order of workers never affects the output, and repeating the
same request against an unchanged upstream (the identity permutation)
yields a bit-identical table. -/
theorem aggregator_deterministic (rs₁ rs₂ : List Chunk) (hperm : rs₁.Perm rs₂)
    (hwf : resultsWF rs₁) : mergeResults rs₁ = mergeResults rs₂ := by
  have hanti₁ : rs₁.Pairwise (fun a b => ¬(ChunkLe a b ∧ ChunkLe b a)) := by
    refine hwf.2.imp_of_mem ?_
    intro a b hma hmb hdisj ⟨hab, hba⟩
    rcases chunkLe_antisymm_key a b hab hba with ⟨hsta, hprod, hstart⟩
    have hawf : chunkWF a := hwf.1 a hma
    have hbwf : chunkWF b := hwf.1 b hmb
    have h1 := hawf.1
    have h2 := hbwf.1
    rcases hdisj hsta hprod with h | h <;> omega
  have hperm₁ : (sortChunks rs₁).Perm (sortChunks rs₂) :=
    ((List.perm_insertionSort ChunkLe rs₁).trans hperm).trans
      (List.perm_insertionSort ChunkLe rs₂).symm
  have hanti_sorted : (sortChunks rs₁).Pairwise (fun a b => ¬(ChunkLe a b ∧ ChunkLe b a)) := by
    refine ((List.perm_insertionSort ChunkLe rs₁).pairwise_iff ?_).mpr hanti₁
    intro x y hxy ⟨h1, h2⟩
    exact hxy ⟨h2, h1⟩
  have hsort : sortChunks rs₁ = sortChunks rs₂ :=
    sorted_perm_unique (sortChunks rs₁) (sortChunks rs₂) hperm₁
      (List.sorted_insertionSort ChunkLe rs₁) (List.sorted_insertionSort ChunkLe rs₂)
      hanti_sorted
  rw [mergeResults, mergeResults, hsort]

/-- Witness for C4: the two-chunk result set of the C2 witness, received
in the two possible arrival orders. -/
theorem aggregator_deterministic_witness :
    (([⟨1, 0, 0, 10, [⟨2, 5, 0⟩, ⟨10, 6, 0⟩]⟩,
       ⟨1, 0, 10, 20, [⟨10, 7, 0⟩, ⟨15, 8, 0⟩]⟩] : List Chunk).Perm
      [⟨1, 0, 10, 20, [⟨10, 7, 0⟩, ⟨15, 8, 0⟩]⟩,
       ⟨1, 0, 0, 10, [⟨2, 5, 0⟩, ⟨10, 6, 0⟩]⟩]) ∧
    mergeResults [⟨1, 0, 0, 10, [⟨2, 5, 0⟩, ⟨10, 6, 0⟩]⟩,
                  ⟨1, 0, 10, 20, [⟨10, 7, 0⟩, ⟨15, 8, 0⟩]⟩]
      = mergeResults [⟨1, 0, 10, 20, [⟨10, 7, 0⟩, ⟨15, 8, 0⟩]⟩,
                      ⟨1, 0, 0, 10, [⟨2, 5, 0⟩, ⟨10, 6, 0⟩]⟩] :=
  ⟨List.Perm.swap _ _ _,
    aggregator_deterministic _ _ (List.Perm.swap _ _ _) (by decide)⟩

end Searvey
